import Mathlib

/-!
Verification development for the quiz-generation pipeline in `src/main.py`
of `cnboonhan/chinese-quiz-gen`.

The Python source is shallowly embedded:

* Python strings are `String` / `List Char` (one `Char` per Python code
  point, so `len` agrees with `String.length` / `List.length`);
* spaCy tokens become the record `Token` carrying exactly the fields the
  source reads (`text`, `pos_`, `dep_`, `head`, `is_punct`, `is_space`, and
  the part-of-speech tags of `token.ancestors`);
* the two generative-model calls and the spaCy pipeline are opaque oracles,
  passed in as function parameters (`gen`, `altR`, `tok`); a raised
  exception inside a `try` block is modelled by `Option` (`none` = the
  oracle raised, so the `except` branch runs);
* `random.sample` / `random.shuffle` consume an explicit stream of random
  numbers (`rng : List Nat`): each draw removes the element at position
  `r % poolSize`, which can realise every possible sample/permutation;
  `random.sample` raises `ValueError` when the requested size exceeds the
  population, modelled by `Option`;
* `str.replace`, `str.split`, `str.strip` and `list.sort(key=..,
  reverse=True)` are re-implemented on `List Char` with Python's documented
  semantics (left-to-right non-overlapping replacement; stable descending
  sort — recall that a stable sort's output is uniquely determined by the
  key order, so the structurally recursive insertion sort below computes
  exactly what CPython's stable `list.sort` computes).
-/

/-- One spaCy token as consumed by `extract_morphemes` in `src/main.py`:
the fields are `token.text`, `token.pos_`, `token.dep_`, `token.head.text`,
`token.is_punct`, `token.is_space`, and the `pos_` tags of
`token.ancestors`. -/
structure Token where
  text : String
  pos : String
  dep : String
  head : String
  is_punct : Bool
  is_space : Bool
  ancestors : List String
deriving DecidableEq

/-- One quiz item dict `{"original_morpheme": ..., "alternatives": ...}`
built by `create_quiz` in `src/main.py`. -/
structure QuizItem where
  original_morpheme : String
  alternatives : List String
deriving DecidableEq

/-- Python `str.strip()` on a list of code points. -/
def pyStrip (l : List Char) : List Char :=
  ((l.dropWhile Char.isWhitespace).reverse.dropWhile Char.isWhitespace).reverse

/-- Fuel-driven core of Python `str.split(sep)` for a non-empty separator:
scan left to right, cutting at each non-overlapping occurrence of `sep`.
`cur` holds the current segment in reverse.  The fuel is always at least
the length of the remaining text, so the fuel-exhausted branch is never
reached from `pySplit`. -/
def splitGo (sep : List Char) : Nat → List Char → List Char → List (List Char)
  | _, cur, [] => [cur.reverse]
  | 0, cur, l => [cur.reverse ++ l]
  | fuel + 1, cur, c :: rest =>
    if sep ≠ [] ∧ sep.isPrefixOf (c :: rest) then
      cur.reverse :: splitGo sep fuel [] ((c :: rest).drop sep.length)
    else
      splitGo sep fuel (c :: cur) rest

/-- Python `str.split(sep)` (the separator in the source is `"|"`, never
empty; Python raises on an empty separator, and we return `[l]` in that
unreachable case). -/
def pySplit (sep l : List Char) : List (List Char) :=
  if sep = [] then [l] else splitGo sep l.length [] l

/-- Fuel-driven core of Python `str.replace(pat, rep)`: replace every
non-overlapping occurrence of `pat`, scanning left to right.  The fuel is
always at least the length of the remaining text, so the fuel-exhausted
branch is never reached from `pyReplace`. -/
def replaceGo (pat rep : List Char) : Nat → List Char → List Char
  | _, [] => []
  | 0, l => l
  | fuel + 1, c :: rest =>
    if pat ≠ [] ∧ pat.isPrefixOf (c :: rest) then
      rep ++ replaceGo pat rep fuel ((c :: rest).drop pat.length)
    else
      c :: replaceGo pat rep fuel rest

/-- Python `str.replace(pat, rep)` on lists of code points, including
Python's semantics for the empty pattern (`"ab".replace("", "X") =
"XaXbX"`); the source only ever calls it with patterns of length ≥ 2. -/
def pyReplace (l pat rep : List Char) : List Char :=
  if pat = [] then rep ++ l.foldr (fun c acc => c :: rep ++ acc) []
  else replaceGo pat rep l.length l

/-- Decides whether `pat` occurs as a contiguous sublist of `l`
(Python `pat in l`). -/
def occursIn (pat : List Char) : List Char → Bool
  | [] => pat.isPrefixOf ([] : List Char)
  | c :: rest => pat.isPrefixOf (c :: rest) || occursIn pat rest

/-- Fuel-driven core of Python `str.count(pat)` for non-empty `pat`:
counts non-overlapping occurrences, scanning left to right. -/
def countGo (pat : List Char) : Nat → List Char → Nat
  | _, [] => 0
  | 0, _ => 0
  | fuel + 1, c :: rest =>
    if pat.isPrefixOf (c :: rest) then
      countGo pat fuel ((c :: rest).drop pat.length) + 1
    else
      countGo pat fuel rest

/-- Python `str.count(pat)` on lists of code points. -/
def pyCount (l pat : List Char) : Nat :=
  if pat = [] then l.length + 1 else countGo pat l.length l

/-- The mask label `f" ({i}) "` used at `src/main.py:122`. -/
def placeholder (i : Nat) : List Char :=
  (" (" ++ Nat.repr i ++ ") ").data

/-- The position drawn from a pool of size `n` by the next random number in
the stream. -/
def draw (rng : List Nat) (n : Nat) : Nat :=
  rng.headD 0 % n

/-- One draw-without-replacement step per requested element: draw `k`
elements from `pool`, each time removing the element at position
`draw rng poolSize`.  This realises exactly the outcomes of
`random.sample(pool, k)` (every `k`-permutation of `pool` is reachable, and
nothing else). -/
def sampleGo {α : Type} : List Nat → List α → Nat → List α
  | _, _, 0 => []
  | rng, pool, k + 1 =>
    match pool[draw rng pool.length]? with
    | none => []
    | some x => x :: sampleGo rng.tail (pool.eraseIdx (draw rng pool.length)) k

/-- Python `random.sample(pool, k)`: raises `ValueError` (here `none`) when
`k` exceeds the population size. -/
def pySample {α : Type} (rng : List Nat) (pool : List α) (k : Nat) : Option (List α) :=
  if pool.length < k then none else some (sampleGo rng pool k)

/-- Python `random.shuffle` (in place in the source, on a freshly built
list): a uniformly random permutation, realised by draws from the explicit
random stream. -/
def pyShuffle {α : Type} (rng : List Nat) (l : List α) : List α :=
  sampleGo rng l l.length

/-- The part-of-speech / length / punctuation / whitespace test of the
outer `if` at `src/main.py:51-56`. -/
def eligibleBase (t : Token) : Bool :=
  (t.pos == "NOUN" || t.pos == "VERB" || t.pos == "ADJ")
    && decide (2 ≤ t.text.length) && !t.is_punct && !t.is_space

/-- The dependency-role / noun-ancestor test of the inner `if` at
`src/main.py:66-69`. -/
def keepCond (t : Token) : Bool :=
  (t.dep == "nsubj" || t.dep == "dobj" || t.dep == "compound")
    || t.ancestors.any (· == "NOUN")

/-- All of the filter-stage conditions of `extract_morphemes` flattened
into a single predicate (everything except the first-seen deduplication,
which depends on the tokens already accepted). -/
def eligibleAll (t : Token) : Bool :=
  eligibleBase t && keepCond t

/-- The accumulation loop over `doc` at `src/main.py:50-70`: `acc` is the
`compounds` list built so far. -/
def candLoop : List Token → List Token → List Token
  | acc, [] => acc
  | acc, t :: rest =>
    if eligibleBase t then
      if decide (t.text ∉ acc.map Token.text) && keepCond t then
        candLoop (acc ++ [t]) rest
      else
        candLoop acc rest
    else
      candLoop acc rest

/-- The full filter stage of `extract_morphemes`: the `compounds` list
after the loop at `src/main.py:50-70`. -/
def buildCandidates (toks : List Token) : List Token :=
  candLoop [] toks

/-- The composite sort key of `src/main.py:72-79`, as a `Nat` triple
(Python compares `(bool, int, bool)` tuples lexicographically with
`False < True`). -/
def keyTriple (t : Token) : Nat × Nat × Nat :=
  ((if t.pos = "NOUN" then 1 else 0),
   t.text.length,
   (if t.dep = "nsubj" ∨ t.dep = "dobj" then 1 else 0))

/-- Lexicographic order on `Nat` triples. -/
def lexLE3 (x y : Nat × Nat × Nat) : Prop :=
  x.1 < y.1 ∨ (x.1 = y.1 ∧ (x.2.1 < y.2.1 ∨ (x.2.1 = y.2.1 ∧ x.2.2 ≤ y.2.2)))

instance (x y : Nat × Nat × Nat) : Decidable (lexLE3 x y) := by
  unfold lexLE3
  exact inferInstance

/-- `a` may precede `b` in the descending sort of `src/main.py:72-79`
exactly when `a`'s key is lexicographically ≥ `b`'s key. -/
def tokGE (a b : Token) : Prop :=
  lexLE3 (keyTriple b) (keyTriple a)

instance : DecidableRel tokGE := fun a b =>
  inferInstanceAs (Decidable (lexLE3 (keyTriple b) (keyTriple a)))

/-- `compounds.sort(key=..., reverse=True)` at `src/main.py:72-79`.
CPython's `list.sort` is a stable sort; a stable sort's output is uniquely
determined by the preorder, so this stable insertion sort (an earlier
element is inserted strictly before the first element whose key is not
greater or equal, hence before every key-tied element that followed it)
computes the identical list. -/
def sortCompounds (l : List Token) : List Token :=
  List.insertionSort tokGE l

/-- `morphemes = [c["text"] for c in compounds]` after filtering and
sorting (`src/main.py:81`). -/
def morphemeTexts (toks : List Token) : List String :=
  (sortCompounds (buildCandidates toks)).map Token.text

/-- `extract_morphemes` (`src/main.py:46-85`), given the annotated tokens
that `nlp(text)` produced for the passage.  `none` models the uncaught
`ValueError` from `random.sample` when `num_morphemes` exceeds the
population `morphemes[:10]`. -/
def extract_morphemes (toks : List Token) (num : Nat) (rng : List Nat) :
    Option (List String) :=
  let morphemes := morphemeTexts toks
  if morphemes.length < num then some morphemes
  else pySample rng (morphemes.take 10) num

/-- `generate_alternatives` (`src/main.py:88-98`): `altR m` is the raw
oracle response text (`none` models a raised exception, caught by the
`except` branch which returns `[]`).  On success the response is stripped,
split on `"|"`, truncated to three entries, and each entry stripped. -/
def generate_alternatives (altR : String → Option String) (m : String) :
    List String :=
  match altR m with
  | none => []
  | some s =>
    (((pySplit "|".data (pyStrip s.data)).take 3).map fun cs =>
      String.mk (pyStrip cs))

/-- The `for i, morpheme in enumerate(target_morphemes)` loop of
`create_quiz` (`src/main.py:114-122`): builds the `quiz_items` list and
threads `masked_text` through the successive `str.replace` calls.  A quiz
item is appended only when `alternatives` is non-empty (`if alternatives:`),
while the replacement happens for every morpheme. -/
def quizLoopGo (altR : String → Option String) :
    Nat → List Char → List String → List QuizItem × List Char
  | _, masked, [] => ([], masked)
  | i, masked, m :: rest =>
    let alts := generate_alternatives altR m
    let masked1 := pyReplace masked m.data (placeholder i)
    let r := quizLoopGo altR (i + 1) masked1 rest
    ((if alts.isEmpty then r.1 else ⟨m, alts⟩ :: r.1), r.2)

/-- The pure masking part of the same loop: replace each morpheme, in
processing order, with the placeholder carrying its index among all
processed morphemes. -/
def maskAll : Nat → List Char → List String → List Char
  | _, masked, [] => masked
  | i, masked, m :: rest =>
    maskAll (i + 1) (pyReplace masked m.data (placeholder i)) rest

/-- `create_quiz` (`src/main.py:101-123`).  `gen` is
`generate_chinese_response` (already stripped; `""` on failure), `altR` the
raw distractor-oracle response, `tok` the spaCy annotation of a passage,
and `rng` the random stream consumed by `random.sample`.  The masked text
is kept as a list of code points.  `none` models an uncaught exception
(possible only through `extract_morphemes`, and never for the default
`num_morphemes = 10` used here). -/
def create_quiz (gen : String → String) (altR : String → Option String)
    (tok : String → List Token) (rng : List Nat) (prompt : String) :
    Option (String × List QuizItem × List Char) :=
  let response := gen prompt
  if response = "" then some ("", [], [])
  else
    match extract_morphemes (tok response) 10 rng with
    | none => none
    | some targets =>
      let r := quizLoopGo altR 0 response.data targets
      some (response, r.1, r.2)

/-- The answer-set shuffling at `src/main.py:142-143`:
`joined_answers = item["alternatives"] + [item["original_morpheme"]]`
followed by `random.shuffle(joined_answers)`.  The concatenation builds a
fresh list, so the item itself is never mutated; `present` is accordingly a
pure function of the item. -/
def present (rng : List Nat) (item : QuizItem) : List String :=
  pyShuffle rng (item.alternatives ++ [item.original_morpheme])


/-! ### Helper lemmas about drawing without replacement -/

lemma draw_lt (rng : List Nat) {n : Nat} (h : 0 < n) : draw rng n < n :=
  Nat.mod_lt _ h

lemma get_cons_eraseIdx_perm {α : Type} :
    ∀ (l : List α) (i : Nat) (h : i < l.length),
      List.Perm (l.get ⟨i, h⟩ :: l.eraseIdx i) l
  | _ :: _, 0, _ => List.Perm.refl _
  | a :: t, i + 1, h => by
    have ht : i < t.length := Nat.lt_of_succ_lt_succ h
    have ih := get_cons_eraseIdx_perm t i ht
    simpa [List.eraseIdx] using
      (List.Perm.swap a (t.get ⟨i, ht⟩) (t.eraseIdx i)).trans (ih.cons a)

lemma get_not_mem_eraseIdx {α : Type} :
    ∀ (l : List α) (i : Nat) (h : i < l.length), l.Nodup →
      l.get ⟨i, h⟩ ∉ l.eraseIdx i
  | a :: t, 0, _, hnd => by
    simpa [List.eraseIdx] using (List.nodup_cons.mp hnd).1
  | a :: t, i + 1, h, hnd => by
    have ht : i < t.length := Nat.lt_of_succ_lt_succ h
    have hmem : t.get ⟨i, ht⟩ ∈ t := List.get_mem t i ht
    have hne : t.get ⟨i, ht⟩ ≠ a := by
      intro habs
      exact (List.nodup_cons.mp hnd).1 (habs ▸ hmem)
    have ih := get_not_mem_eraseIdx t i ht (List.nodup_cons.mp hnd).2
    simp only [List.eraseIdx, List.get_cons_succ, List.mem_cons]
    rintro (hx | hx)
    · exact hne hx
    · exact ih hx

lemma sampleGo_length {α : Type} (k : Nat) :
    ∀ (rng : List Nat) (pool : List α), k ≤ pool.length →
      (sampleGo rng pool k).length = k := by
  induction k with
  | zero => intro rng pool _; rfl
  | succ k ih =>
    intro rng pool h
    have hlt : draw rng pool.length < pool.length := draw_lt rng (by omega)
    have hsome : pool[draw rng pool.length]? = some (pool.get ⟨_, hlt⟩) :=
      List.getElem?_eq_getElem hlt
    have herase : (pool.eraseIdx (draw rng pool.length)).length = pool.length - 1 := by
      simp [List.length_eraseIdx, hlt]
    have := ih rng.tail (pool.eraseIdx (draw rng pool.length)) (by omega)
    simp only [sampleGo, hsome, List.length_cons, this]

lemma sampleGo_subset {α : Type} (k : Nat) :
    ∀ (rng : List Nat) (pool : List α) (x : α),
      x ∈ sampleGo rng pool k → x ∈ pool := by
  induction k with
  | zero => intro rng pool x h; simp [sampleGo] at h
  | succ k ih =>
    intro rng pool x h
    rcases hp : pool[draw rng pool.length]? with _ | y
    · rw [sampleGo, hp] at h
      simp at h
    · rw [sampleGo, hp] at h
      obtain ⟨hlt, hy⟩ := List.getElem?_eq_some.mp hp
      rcases List.mem_cons.mp h with rfl | h
      · exact hy ▸ List.getElem_mem hlt
      · exact (pool.eraseIdx_sublist _).mem (ih rng.tail _ x h)

lemma sampleGo_nodup {α : Type} (k : Nat) :
    ∀ (rng : List Nat) (pool : List α), pool.Nodup →
      (sampleGo rng pool k).Nodup := by
  induction k with
  | zero => intro rng pool _; simp [sampleGo]
  | succ k ih =>
    intro rng pool hnd
    rcases hp : pool[draw rng pool.length]? with _ | y
    · rw [sampleGo, hp]
      simp
    · rw [sampleGo, hp]
      obtain ⟨hlt, hy⟩ := List.getElem?_eq_some.mp hp
      have hnd' : (pool.eraseIdx (draw rng pool.length)).Nodup :=
        (pool.eraseIdx_sublist _).nodup hnd
      refine List.nodup_cons.mpr ⟨fun habs => ?_, ih rng.tail _ hnd'⟩
      have hmem := sampleGo_subset k rng.tail _ y habs
      have : pool.get ⟨draw rng pool.length, hlt⟩ = y := by
        simpa using hy
      exact get_not_mem_eraseIdx pool _ hlt hnd (this ▸ hmem)

lemma sampleGo_perm {α : Type} (k : Nat) :
    ∀ (rng : List Nat) (l : List α), l.length = k →
      List.Perm (sampleGo rng l k) l := by
  induction k with
  | zero =>
    intro rng l h
    have : l = [] := List.length_eq_zero.mp h
    simp [this, sampleGo]
  | succ k ih =>
    intro rng l h
    have hlt : draw rng l.length < l.length := draw_lt rng (by omega)
    have hsome : l[draw rng l.length]? = some (l.get ⟨_, hlt⟩) :=
      List.getElem?_eq_getElem hlt
    have herase : (l.eraseIdx (draw rng l.length)).length = k := by
      simp [List.length_eraseIdx, hlt]
      omega
    rw [sampleGo, hsome]
    exact ((ih rng.tail _ herase).cons _).trans (get_cons_eraseIdx_perm l _ hlt)

/-! ### Helper lemmas about the filter stage -/

lemma candLoop_cons (acc : List Token) (u : Token) (rest : List Token) :
    candLoop acc (u :: rest) =
      candLoop
        (if eligibleBase u && (decide (u.text ∉ acc.map Token.text) && keepCond u)
          then acc ++ [u] else acc) rest := by
  rw [candLoop]
  by_cases hb : eligibleBase u = true
  · simp only [hb, Bool.true_and, if_true]
    by_cases hc : (decide (u.text ∉ acc.map Token.text) && keepCond u) = true
    · rw [if_pos hc, if_pos hc]
    · rw [if_neg hc, if_neg hc]
  · simp only [if_neg hb, Bool.and_eq_true]
    rw [if_neg (by simp [hb])]

lemma candLoop_mem_texts :
    ∀ (rest acc : List Token) (x : String),
      (x ∈ (candLoop acc rest).map Token.text ↔
        x ∈ acc.map Token.text ∨ ∃ t ∈ rest, eligibleAll t = true ∧ t.text = x) := by
  intro rest
  induction rest with
  | nil => intro acc x; simp [candLoop]
  | cons u rest ih =>
    intro acc x
    rw [candLoop_cons, ih]
    by_cases hacc :
        (eligibleBase u && (decide (u.text ∉ acc.map Token.text) && keepCond u)) = true
    · rw [if_pos hacc]
      have helig : eligibleAll u = true := by
        simp only [Bool.and_eq_true] at hacc
        simp [eligibleAll, hacc.1, hacc.2.2]
      simp only [List.map_append, List.map_cons, List.map_nil, List.mem_append,
        List.mem_cons, List.not_mem_nil, or_false]
      constructor
      · rintro ((hx | hx) | ⟨t, ht, he, hxt⟩)
        · exact Or.inl hx
        · exact Or.inr ⟨u, Or.inl rfl, helig, hx.symm⟩
        · exact Or.inr ⟨t, Or.inr ht, he, hxt⟩
      · rintro (hx | ⟨t, rfl | ht, he, hxt⟩)
        · exact Or.inl (Or.inl hx)
        · exact Or.inl (Or.inr hxt.symm)
        · exact Or.inr ⟨t, ht, he, hxt⟩
    · rw [if_neg hacc]
      constructor
      · rintro (hx | ⟨t, ht, he, hxt⟩)
        · exact Or.inl hx
        · exact Or.inr ⟨t, List.mem_cons_of_mem u ht, he, hxt⟩
      · rintro (hx | ⟨t, ht, he, hxt⟩)
        · exact Or.inl hx
        · rcases List.mem_cons.mp ht with rfl | ht
          · -- the accept test failed although `t` passes the flat filter:
            -- only the dedup conjunct can have failed, so `t.text` is already in `acc`
            have hb : eligibleBase t = true := by
              simp only [eligibleAll, Bool.and_eq_true] at he
              exact he.1
            have hk : keepCond t = true := by
              simp only [eligibleAll, Bool.and_eq_true] at he
              exact he.2
            have hdup : t.text ∈ acc.map Token.text := by
              by_contra hnot
              exact hacc (by simp [hb, hk, hnot])
            exact Or.inl (hxt ▸ hdup)
          · exact Or.inr ⟨t, ht, he, hxt⟩

lemma candLoop_nodup_texts :
    ∀ (rest acc : List Token), (acc.map Token.text).Nodup →
      ((candLoop acc rest).map Token.text).Nodup := by
  intro rest
  induction rest with
  | nil => intro acc h; simpa [candLoop] using h
  | cons u rest ih =>
    intro acc h
    rw [candLoop_cons]
    by_cases hacc :
        (eligibleBase u && (decide (u.text ∉ acc.map Token.text) && keepCond u)) = true
    · rw [if_pos hacc]
      refine ih (acc ++ [u]) ?_
      have hdup : u.text ∉ acc.map Token.text := by
        simp only [Bool.and_eq_true, decide_eq_true_eq] at hacc
        exact hacc.2.1
      simp [List.nodup_append, h, hdup]
    · rw [if_neg hacc]
      exact ih acc h

lemma mem_buildCandidates_texts (toks : List Token) (x : String) :
    x ∈ (buildCandidates toks).map Token.text ↔
      ∃ t ∈ toks, eligibleAll t = true ∧ t.text = x := by
  rw [buildCandidates, candLoop_mem_texts]
  simp

lemma buildCandidates_nodup_texts (toks : List Token) :
    ((buildCandidates toks).map Token.text).Nodup :=
  candLoop_nodup_texts toks [] (by simp)

lemma sortCompounds_perm (l : List Token) :
    List.Perm (sortCompounds l) l :=
  List.perm_insertionSort tokGE l

lemma morphemeTexts_nodup (toks : List Token) : (morphemeTexts toks).Nodup :=
  ((sortCompounds_perm (buildCandidates toks)).map Token.text).nodup_iff.mpr
    (buildCandidates_nodup_texts toks)

lemma mem_morphemeTexts (toks : List Token) (x : String) :
    x ∈ morphemeTexts toks ↔
      ∃ t ∈ toks, eligibleAll t = true ∧ t.text = x := by
  rw [← mem_buildCandidates_texts]
  exact ((sortCompounds_perm (buildCandidates toks)).map Token.text).mem_iff

/-! ### Helper lemmas about the assembly loop and the selector -/

lemma quizLoopGo_snd (altR : String → Option String) :
    ∀ (ms : List String) (i : Nat) (masked : List Char),
      (quizLoopGo altR i masked ms).2 = maskAll i masked ms := by
  intro ms
  induction ms with
  | nil => intro i masked; rfl
  | cons m rest ih =>
    intro i masked
    rw [quizLoopGo, maskAll]
    by_cases h : (generate_alternatives altR m).isEmpty <;>
      simp [h, ih]

lemma quizLoopGo_fst (altR : String → Option String) :
    ∀ (ms : List String) (i : Nat) (masked : List Char),
      (quizLoopGo altR i masked ms).1 =
        (ms.filter fun m => !(generate_alternatives altR m).isEmpty).map
          fun m => ⟨m, generate_alternatives altR m⟩ := by
  intro ms
  induction ms with
  | nil => intro i masked; rfl
  | cons m rest ih =>
    intro i masked
    rw [quizLoopGo, List.filter_cons]
    by_cases h : (generate_alternatives altR m).isEmpty <;>
      simp [h, ih]

lemma morphemeTexts_take_nodup (toks : List Token) :
    ((morphemeTexts toks).take 10).Nodup :=
  (morphemeTexts_nodup toks).sublist (List.take_sublist 10 _)

lemma extract_morphemes_ten (toks : List Token) (rng : List Nat) :
    ∃ ms, extract_morphemes toks 10 rng = some ms := by
  rw [extract_morphemes]
  by_cases h : (morphemeTexts toks).length < 10
  · exact ⟨morphemeTexts toks, by simp [h]⟩
  · refine ⟨sampleGo rng ((morphemeTexts toks).take 10) 10, ?_⟩
    have hlen : ((morphemeTexts toks).take 10).length = 10 := by
      simp [List.length_take]
      omega
    simp only [if_neg h, pySample, hlen]
    rw [if_neg (by omega)]

/-! ### Helper lemmas about literal replacement -/

lemma isPrefixOf_nil_iff {q : List Char} : q.isPrefixOf ([] : List Char) = true ↔ q = [] := by
  cases q <;> simp [List.isPrefixOf]

lemma isPrefixOf_cons_cons (a b : Char) (as bs : List Char) :
    (a :: as).isPrefixOf (b :: bs) = ((a == b) && as.isPrefixOf bs) := rfl

lemma occursIn_append_disjoint (pat : List Char) (hpat : pat ≠ []) :
    ∀ (front X : List Char), (∀ c ∈ front, c ∉ pat) → occursIn pat X = false →
      occursIn pat (front ++ X) = false := by
  intro front
  induction front with
  | nil => intro X _ hX; simpa using hX
  | cons r rs ih =>
    intro X hdisj hX
    rcases pat with _ | ⟨p, ps⟩
    · exact absurd rfl hpat
    · rw [List.cons_append, occursIn, isPrefixOf_cons_cons]
      have hpr : (p == r) = false := by
        by_contra hne
        have : p = r := by
          have := Bool.of_not_eq_false hne
          exact beq_iff_eq.mp this
        exact hdisj r (List.mem_cons_self r rs) (this ▸ List.mem_cons_self p ps)
      rw [hpr]
      simpa using ih X (fun c hc => hdisj c (List.mem_cons_of_mem r hc)) hX

lemma prefix_free_replaceGo (pat rep : List Char) (hrep : rep ≠ [])
    (hdisj : ∀ c ∈ rep, c ∉ pat) :
    ∀ (fuel : Nat) (l q : List Char), l.length ≤ fuel → q ≠ [] →
      q.IsSuffix pat → q.isPrefixOf l = false →
      q.isPrefixOf (replaceGo pat rep fuel l) = false := by
  intro fuel
  induction fuel with
  | zero =>
    intro l q hfuel hq _ _
    have : l = [] := List.eq_nil_of_length_eq_zero (Nat.le_zero.mp hfuel)
    subst this
    rw [replaceGo]
    by_contra habs
    exact hq (isPrefixOf_nil_iff.mp (Bool.of_not_eq_false habs))
  | succ fuel ih =>
    intro l q hfuel hq hsuf hpref
    rcases l with _ | ⟨c, rest⟩
    · rw [replaceGo]
      by_contra habs
      exact hq (isPrefixOf_nil_iff.mp (Bool.of_not_eq_false habs))
    · rw [replaceGo]
      by_cases hm : pat ≠ [] ∧ pat.isPrefixOf (c :: rest) = true
      · rw [if_pos hm]
        rcases rep with _ | ⟨r, rs⟩
        · exact absurd rfl hrep
        · rcases q with _ | ⟨qh, qt⟩
          · exact absurd rfl hq
          · rw [List.cons_append, isPrefixOf_cons_cons]
            have hqr : (qh == r) = false := by
              by_contra hne
              have heq : qh = r := beq_iff_eq.mp (Bool.of_not_eq_false hne)
              have hqmem : qh ∈ pat := hsuf.sublist.mem (List.mem_cons_self qh qt)
              exact hdisj r (List.mem_cons_self r rs) (heq ▸ hqmem)
            rw [hqr]
            rfl
      · rw [if_neg hm]
        rcases q with _ | ⟨qh, qt⟩
        · exact absurd rfl hq
        · rw [isPrefixOf_cons_cons]
          by_cases hqc : (qh == c) = true
          · rw [hqc, Bool.true_and]
            have hqceq : qh = c := beq_iff_eq.mp hqc
            rcases qt with _ | ⟨q2, qts⟩
            · -- then q = [c] would be a prefix of the original l, a contradiction
              rw [isPrefixOf_cons_cons] at hpref
              rw [hqceq] at hpref
              simp [List.isPrefixOf] at hpref
            · have hqtsuf : (q2 :: qts).IsSuffix pat := by
                obtain ⟨u, hu⟩ := hsuf
                exact ⟨u ++ [qh], by simpa using hu⟩
              have hqtpref : (q2 :: qts).isPrefixOf rest = false := by
                rw [isPrefixOf_cons_cons, hqceq] at hpref
                simpa using hpref
              exact ih rest (q2 :: qts) (Nat.le_of_succ_le_succ hfuel)
                (by simp) hqtsuf hqtpref
          · rw [Bool.eq_false_iff.mpr hqc]
            rfl

lemma occursIn_replaceGo (pat rep : List Char) (hpat : pat ≠ []) (hrep : rep ≠ [])
    (hdisj : ∀ c ∈ rep, c ∉ pat) :
    ∀ (fuel : Nat) (l : List Char), l.length ≤ fuel →
      occursIn pat (replaceGo pat rep fuel l) = false := by
  intro fuel
  induction fuel with
  | zero =>
    intro l hfuel
    have : l = [] := List.eq_nil_of_length_eq_zero (Nat.le_zero.mp hfuel)
    subst this
    rw [replaceGo, occursIn]
    by_contra habs
    exact hpat (isPrefixOf_nil_iff.mp (Bool.of_not_eq_false habs))
  | succ fuel ih =>
    intro l hfuel
    rcases l with _ | ⟨c, rest⟩
    · rw [replaceGo, occursIn]
      by_contra habs
      exact hpat (isPrefixOf_nil_iff.mp (Bool.of_not_eq_false habs))
    · by_cases hm : pat ≠ [] ∧ pat.isPrefixOf (c :: rest) = true
      · rw [replaceGo, if_pos hm]
        refine occursIn_append_disjoint pat hpat rep _ hdisj ?_
        refine ih _ ?_
        have hplen : 1 ≤ pat.length := by
          rcases pat with _ | _
          · exact absurd rfl hpat
          · simp
        simp only [List.length_drop, List.length_cons] at hfuel ⊢
        omega
      · have hstep : replaceGo pat rep (fuel + 1) (c :: rest) =
            c :: replaceGo pat rep fuel rest := by
          rw [replaceGo, if_neg hm]
        have hpref : pat.isPrefixOf (c :: rest) = false := by
          rcases Decidable.not_and_iff_or_not.mp hm with h | h
          · exact absurd hpat (by simpa using h)
          · exact Bool.eq_false_iff.mpr h
        have hfree := prefix_free_replaceGo pat rep hrep hdisj (fuel + 1)
          (c :: rest) pat hfuel hpat (List.suffix_refl pat) hpref
        rw [hstep] at hfree
        rw [hstep, occursIn, hfree, Bool.false_or]
        exact ih rest (Nat.le_of_succ_le_succ hfuel)

lemma occursIn_pyReplace (l pat rep : List Char) (hpat : pat ≠ []) (hrep : rep ≠ [])
    (hdisj : ∀ c ∈ rep, c ∉ pat) :
    occursIn pat (pyReplace l pat rep) = false := by
  rw [pyReplace, if_neg hpat]
  exact occursIn_replaceGo pat rep hpat hrep hdisj l.length l le_rfl

lemma replaceGo_of_not_occursIn (pat rep : List Char) :
    ∀ (fuel : Nat) (l : List Char), l.length ≤ fuel → occursIn pat l = false →
      replaceGo pat rep fuel l = l := by
  intro fuel
  induction fuel with
  | zero =>
    intro l hfuel _
    have : l = [] := List.eq_nil_of_length_eq_zero (Nat.le_zero.mp hfuel)
    subst this
    rfl
  | succ fuel ih =>
    intro l hfuel hocc
    rcases l with _ | ⟨c, rest⟩
    · rfl
    · rw [occursIn, Bool.or_eq_false_iff] at hocc
      rw [replaceGo, if_neg (by simp [hocc.1])]
      rw [ih rest (Nat.le_of_succ_le_succ hfuel) hocc.2]

lemma pyReplace_of_not_occursIn (l pat rep : List Char) (hpat : pat ≠ [])
    (hocc : occursIn pat l = false) : pyReplace l pat rep = l := by
  rw [pyReplace, if_neg hpat]
  exact replaceGo_of_not_occursIn pat rep l.length l le_rfl hocc

/-! ### Order facts for the ranking relation -/

instance : IsTotal Token tokGE :=
  ⟨fun a b => by unfold tokGE lexLE3; omega⟩

instance : IsTrans Token tokGE :=
  ⟨fun a b c hab hbc => by unfold tokGE lexLE3 at hab hbc ⊢; omega⟩

lemma placeholder_ne_nil (i : Nat) : placeholder i ≠ [] := by
  intro habs
  rw [placeholder, String.data_append, String.data_append] at habs
  rcases List.append_eq_nil.mp habs with ⟨h1, _⟩
  rcases List.append_eq_nil.mp h1 with ⟨h3, _⟩
  exact absurd h3 (by decide)

/-! ### Concrete fixtures used by witnesses and counterexamples -/

/-- A token with the given surface text, part-of-speech tag, and dependency
label (the remaining fields are irrelevant to selection on these fixtures). -/
def mkTok (txt pos dep : String) : Token :=
  ⟨txt, pos, dep, "hd", false, false, []⟩

/-- Two eligible candidate tokens. -/
def toksTwo : List Token := [mkTok "aa" "NOUN" "nsubj", mkTok "bb" "NOUN" "nsubj"]

/-- Eleven eligible candidate tokens with distinct texts. -/
def toksEleven : List Token :=
  [mkTok "aa" "NOUN" "nsubj", mkTok "bb" "NOUN" "nsubj", mkTok "cc" "NOUN" "nsubj",
   mkTok "dd" "NOUN" "nsubj", mkTok "ee" "NOUN" "nsubj", mkTok "ff" "NOUN" "nsubj",
   mkTok "gg" "NOUN" "nsubj", mkTok "hh" "NOUN" "nsubj", mkTok "ii" "NOUN" "nsubj",
   mkTok "jj" "NOUN" "nsubj", mkTok "kk" "NOUN" "nsubj"]

/-- A distractor oracle that always raises (its response is `none`). -/
def altRNone : String → Option String := fun _ => none

/-- A distractor oracle that always answers with three fixed compounds. -/
def altRGood : String → Option String := fun _ => some "丙丁|戊己|庚辛"

/-- A distractor oracle that echoes the quizzed compound as its first
alternative. -/
def altREcho : String → Option String := fun _ => some "甲乙|丙丁|戊己"

/-! ### C1 -/

/-- C1 (counterexample): the sampling law fails as stated.  With eleven
eligible candidates and `maxCount = 11`, the top-10 pool has at most
`maxCount` entries, so the claim demands that `select` return the entire
pool without error — but `extract_morphemes` calls
`random.sample(morphemes[:10], 11)` on a 10-element population and raises
`ValueError` (modelled as `none`). -/
theorem sampling_law_cex :
    ((morphemeTexts toksEleven).take 10).length ≤ 11 ∧
      11 ≤ (morphemeTexts toksEleven).length ∧
      extract_morphemes toksEleven 11 [] = none := by
  refine ⟨by decide, by decide, by decide⟩

/-- C1 (amended): the sampling law restricted to what the code does.  If
fewer candidates than `maxCount` exist, `select` returns the entire
candidate list unchanged (even when that list is longer than the top-10
pool); if at least `maxCount` candidates exist and `maxCount ≤ 10`, it
returns exactly `maxCount` distinct elements, all drawn from the top-10
pool; and if `maxCount > 10` while at least `maxCount` candidates exist, it
raises (`none`) instead of returning the pool. -/
theorem sampling_law_amended (toks : List Token) (num : Nat) (rng : List Nat) :
    ((morphemeTexts toks).length < num →
        extract_morphemes toks num rng = some (morphemeTexts toks)) ∧
      (num ≤ (morphemeTexts toks).length → num ≤ 10 →
        ∃ res, extract_morphemes toks num rng = some res ∧
          res.length = num ∧ res.Nodup ∧
          ∀ x ∈ res, x ∈ (morphemeTexts toks).take 10) ∧
      (10 < num → num ≤ (morphemeTexts toks).length →
        extract_morphemes toks num rng = none) := by
  refine ⟨?_, ?_, ?_⟩
  · intro h
    rw [extract_morphemes, if_pos h]
  · intro hge h10
    rw [extract_morphemes, if_neg (by omega)]
    have hlen : ((morphemeTexts toks).take 10).length = min 10 (morphemeTexts toks).length :=
      List.length_take 10 _
    rw [pySample, if_neg (by omega)]
    refine ⟨_, rfl, sampleGo_length num rng _ (by omega),
      sampleGo_nodup num rng _ (morphemeTexts_take_nodup toks),
      fun x hx => sampleGo_subset num rng _ x hx⟩
  · intro h10 hge
    rw [extract_morphemes, if_neg (by omega)]
    have hlen : ((morphemeTexts toks).take 10).length = min 10 (morphemeTexts toks).length :=
      List.length_take 10 _
    rw [pySample, if_pos (by omega)]

/-- C1 (witness): the amended law applied at concrete inputs, discharging
each of its hypotheses. -/
theorem sampling_law_amended_witness :
    extract_morphemes toksTwo 3 [] = some (morphemeTexts toksTwo) ∧
      (∃ res, extract_morphemes toksEleven 10 [] = some res ∧
        res.length = 10 ∧ res.Nodup ∧
        ∀ x ∈ res, x ∈ (morphemeTexts toksEleven).take 10) ∧
      extract_morphemes toksEleven 11 [] = none :=
  ⟨(sampling_law_amended toksTwo 3 []).1 (by decide),
   (sampling_law_amended toksEleven 10 []).2.1 (by decide) (by decide),
   (sampling_law_amended toksEleven 11 []).2.2 (by decide) (by decide)⟩

/-! ### C2 -/

/-- C2 (counterexample): the 1:1 mask/item invariant fails as stated.  One
selected morpheme "甲乙" whose distractor generation raises is still masked
(the placeholder " (0) " appears in the masked passage) while `quiz_items`
is empty, so that mask has no corresponding QuizItem. -/
theorem mask_item_invariant_cex :
    create_quiz (fun _ => "甲乙真好") altRNone (fun _ => [mkTok "甲乙" "NOUN" "nsubj"]) [] "t"
        = some ("甲乙真好", [], " (0) 真好".data) ∧
      occursIn (placeholder 0) " (0) 真好".data = true := by
  refine ⟨by decide, by decide⟩

/-- C2 (amended): the 1:1 correspondence holds exactly when every selected
morpheme's alternative generation succeeds: then the produced items are the
processed morphemes in processing order, so the item at index `j`
corresponds to the morpheme masked with label `j` (the loop starts at
index 0).  A morpheme whose alternative generation fails is still masked
but produces no item. -/
theorem mask_item_invariant_amended (altR : String → Option String)
    (masked : List Char) (ms : List String)
    (h : ∀ m ∈ ms, (generate_alternatives altR m).isEmpty = false) :
    (quizLoopGo altR 0 masked ms).1 =
      ms.map fun m => ⟨m, generate_alternatives altR m⟩ := by
  rw [quizLoopGo_fst]
  rw [List.filter_eq_self.mpr]
  intro m hm
  simp [h m hm]

/-- C2 (witness): the amended statement applied at a concrete run whose
single morpheme yields three alternatives. -/
theorem mask_item_invariant_amended_witness :
    (quizLoopGo altRGood 0 "甲乙真好".data ["甲乙"]).1 =
      [⟨"甲乙", ["丙丁", "戊己", "庚辛"]⟩] := by
  rw [mask_item_invariant_amended altRGood "甲乙真好".data ["甲乙"] (by decide)]
  decide

/-! ### C3 -/

/-- C3: masking semantics.  (1) The assembly loop masks every processed
morpheme, in processing order, labelling it with its zero-based index among
all processed morphemes — item production plays no role in masking.
(2) Replacement is exhaustive: replacing a non-empty morpheme whose
characters do not occur in its placeholder leaves no literal occurrence of
the morpheme behind.  (3) The spec's concrete check: a passage containing
"音乐" exactly twice, masked with index 3, contains " (3) " exactly twice
and no literal "音乐". -/
theorem masking_semantics :
    (∀ (altR : String → Option String) (i : Nat) (masked : List Char) (ms : List String),
        (quizLoopGo altR i masked ms).2 = maskAll i masked ms) ∧
      (∀ (text m : List Char) (i : Nat), m ≠ [] →
        (∀ c ∈ placeholder i, c ∉ m) →
        occursIn m (pyReplace text m (placeholder i)) = false) ∧
      (pyCount (pyReplace "音乐很好音乐棒".data "音乐".data (placeholder 3)) (placeholder 3) = 2 ∧
        occursIn "音乐".data (pyReplace "音乐很好音乐棒".data "音乐".data (placeholder 3)) = false) := by
  refine ⟨fun altR i masked ms => quizLoopGo_snd altR ms i masked, ?_, by decide, by decide⟩
  intro text m i hm hdisj
  exact occursIn_pyReplace text m (placeholder i) hm (placeholder_ne_nil i) hdisj

/-- C3 (witness): the exhaustive-replacement part applied at a concrete
passage and morpheme, discharging both hypotheses. -/
theorem masking_semantics_witness :
    occursIn "音乐".data (pyReplace "大家听音乐".data "音乐".data (placeholder 0)) = false :=
  masking_semantics.2.1 "大家听音乐".data "音乐".data 0 (by decide) (by decide)

/-! ### C4 -/

lemma lexLE3_refl (x : Nat × Nat × Nat) : lexLE3 x x := by
  unfold lexLE3
  omega

lemma keyTriple_ne_of_not_tokGE {a y : Token} (h : ¬ tokGE a y) :
    keyTriple y ≠ keyTriple a := by
  intro heq
  apply h
  unfold tokGE
  rw [heq]
  exact lexLE3_refl (keyTriple a)

lemma orderedInsert_filter_keyTriple (a : Token) (k : Nat × Nat × Nat) :
    ∀ L : List Token,
      (List.orderedInsert tokGE a L).filter (fun t => decide (keyTriple t = k)) =
        if keyTriple a = k
          then a :: L.filter (fun t => decide (keyTriple t = k))
          else L.filter (fun t => decide (keyTriple t = k)) := by
  intro L
  induction L with
  | nil =>
    by_cases hk : keyTriple a = k <;>
      simp [List.orderedInsert, List.filter_cons, hk]
  | cons y ys ih =>
    rw [List.orderedInsert]
    by_cases hr : tokGE a y
    · rw [if_pos hr]
      by_cases hk : keyTriple a = k <;>
        simp [List.filter_cons, hk]
    · rw [if_neg hr]
      have hyne : keyTriple y ≠ keyTriple a := keyTriple_ne_of_not_tokGE hr
      by_cases hk : keyTriple a = k
      · have hyk : keyTriple y ≠ k := fun habs => hyne (habs.trans hk.symm)
        simp [List.filter_cons, hyk, ih, hk]
      · by_cases hy : keyTriple y = k <;>
          simp [List.filter_cons, hy, ih, hk]

/-- Universal stability of the ranking stage: restricting the sorted
candidate list to the tokens of any one fixed composite key yields exactly
the input restricted to that key — key-tied tokens appear in the output in
their filter-stage (encounter) order, whatever the input list. -/
lemma sortCompounds_filter_keyTriple (k : Nat × Nat × Nat) :
    ∀ l : List Token,
      (sortCompounds l).filter (fun t => decide (keyTriple t = k)) =
        l.filter (fun t => decide (keyTriple t = k)) := by
  intro l
  induction l with
  | nil => rfl
  | cons a l ih =>
    have hstep : sortCompounds (a :: l) =
        List.orderedInsert tokGE a (sortCompounds l) := rfl
    rw [hstep, orderedInsert_filter_keyTriple a k (sortCompounds l)]
    by_cases hk : keyTriple a = k
    · rw [if_pos hk, ih, List.filter_cons, if_pos (by simp [hk])]
    · rw [if_neg hk, ih, List.filter_cons, if_neg (by simp [hk])]

/-- C4: the ranking stage.  `sortCompounds` permutes the candidates; it
orders them by the composite descending key (is-noun, text length,
dependency-role-is-core) — adjacent elements always satisfy `tokGE`; and
ties retain filter-stage encounter order universally: for every input list
and every key value, the sorted list restricted to that key equals the
input restricted to that key (together with the first two conjuncts this
determines the output uniquely).  On the spec's example the order is
[研究所, 学校, 跑步], and on two key-tied candidates the encounter order is
retained. -/
theorem ranking_stage :
    (∀ l : List Token, List.Perm (sortCompounds l) l) ∧
      (∀ l : List Token, List.Pairwise tokGE (sortCompounds l)) ∧
      (∀ (k : Nat × Nat × Nat) (l : List Token),
        (sortCompounds l).filter (fun t => decide (keyTriple t = k)) =
          l.filter (fun t => decide (keyTriple t = k))) ∧
      sortCompounds
          [mkTok "学校" "NOUN" "nsubj", mkTok "跑步" "VERB" "dep", mkTok "研究所" "NOUN" "dep"]
        = [mkTok "研究所" "NOUN" "dep", mkTok "学校" "NOUN" "nsubj", mkTok "跑步" "VERB" "dep"] ∧
      sortCompounds [mkTok "学校" "NOUN" "nsubj", mkTok "操场" "NOUN" "dobj"]
        = [mkTok "学校" "NOUN" "nsubj", mkTok "操场" "NOUN" "dobj"] := by
  refine ⟨sortCompounds_perm, ?_, sortCompounds_filter_keyTriple, by decide, by decide⟩
  intro l
  exact List.sorted_insertionSort tokGE l

/-! ### C5 -/

lemma eligibleAll_iff (t : Token) :
    eligibleAll t = true ↔
      ((t.pos = "NOUN" ∨ t.pos = "VERB" ∨ t.pos = "ADJ") ∧
        2 ≤ t.text.length ∧ t.is_punct = false ∧ t.is_space = false ∧
        ((t.dep = "nsubj" ∨ t.dep = "dobj" ∨ t.dep = "compound") ∨
          "NOUN" ∈ t.ancestors)) := by
  rw [eligibleAll, eligibleBase, keepCond]
  simp only [Bool.and_eq_true, Bool.or_eq_true, beq_iff_eq, decide_eq_true_eq,
    Bool.not_eq_true', List.any_eq_true]
  constructor
  · rintro ⟨⟨⟨⟨hpos, hlen⟩, hpunct⟩, hspace⟩, hkeep⟩
    refine ⟨by tauto, hlen, hpunct, hspace, ?_⟩
    rcases hkeep with h | ⟨a, ha, haeq⟩
    · exact Or.inl (by tauto)
    · exact Or.inr (haeq ▸ ha)
  · rintro ⟨hpos, hlen, hpunct, hspace, hkeep⟩
    refine ⟨⟨⟨⟨by tauto, hlen⟩, hpunct⟩, hspace⟩, ?_⟩
    rcases hkeep with h | ha
    · exact Or.inl (by tauto)
    · exact Or.inr ⟨"NOUN", ha, rfl⟩

/-- C5: filter-stage membership.  A surface text is among the candidates
exactly when some token carries it and satisfies all filter conditions:
part-of-speech in {noun, verb, adjective}, length ≥ 2, not punctuation, not
whitespace, and (core dependency role or a noun ancestor); and the
candidate texts are pairwise distinct (first-seen deduplication). -/
theorem filter_stage_membership (toks : List Token) (x : String) :
    (x ∈ (buildCandidates toks).map Token.text ↔
        ∃ t ∈ toks,
          ((t.pos = "NOUN" ∨ t.pos = "VERB" ∨ t.pos = "ADJ") ∧
            2 ≤ t.text.length ∧ t.is_punct = false ∧ t.is_space = false ∧
            ((t.dep = "nsubj" ∨ t.dep = "dobj" ∨ t.dep = "compound") ∨
              "NOUN" ∈ t.ancestors)) ∧
          t.text = x) ∧
      ((buildCandidates toks).map Token.text).Nodup := by
  refine ⟨?_, buildCandidates_nodup_texts toks⟩
  rw [mem_buildCandidates_texts]
  constructor
  · rintro ⟨t, ht, he, hxt⟩
    exact ⟨t, ht, (eligibleAll_iff t).mp he, hxt⟩
  · rintro ⟨t, ht, he, hxt⟩
    exact ⟨t, ht, (eligibleAll_iff t).mpr he, hxt⟩

/-! ### C6 -/

/-- C6 (counterexample): per-morpheme distractor failure is recovered, but
not by producing an empty-alternatives QuizItem.  With one selected
morpheme "学习" whose distractor oracle raises, `create_quiz` returns an
empty `quiz_items` list — not `[{original: "学习", alternatives: []}]` as
the claim states — while the morpheme is still masked. -/
theorem distractor_failure_cex :
    create_quiz (fun _ => "学习使人进步") altRNone
        (fun _ => [mkTok "学习" "NOUN" "nsubj"]) [] "t"
        = some ("学习使人进步", [], " (0) 使人进步".data) ∧
      ([] : List QuizItem) ≠ [⟨"学习", []⟩] := by
  refine ⟨by decide, by decide⟩

/-- C6 (amended): a per-morpheme distractor failure is recovered locally,
but the affected morpheme produces NO QuizItem at all (the item list keeps
exactly the morphemes with non-empty alternatives, in order) — it is not
kept with an empty alternatives list; the pipeline continues, and a step-1
passage failure is the only aborting path: whenever the passage is
non-empty, `create_quiz` completes and returns it. -/
theorem distractor_failure_amended :
    (∀ (altR : String → Option String) (i : Nat) (masked : List Char) (ms : List String),
        (quizLoopGo altR i masked ms).1 =
          (ms.filter fun m => !(generate_alternatives altR m).isEmpty).map
            fun m => ⟨m, generate_alternatives altR m⟩) ∧
      (∀ (gen : String → String) (altR : String → Option String)
          (tok : String → List Token) (rng : List Nat) (prompt : String),
        gen prompt ≠ "" →
        ∃ items masked, create_quiz gen altR tok rng prompt =
          some (gen prompt, items, masked)) := by
  refine ⟨fun altR i masked ms => quizLoopGo_fst altR ms i masked, ?_⟩
  intro gen altR tok rng prompt hne
  obtain ⟨ms, hms⟩ := extract_morphemes_ten (tok (gen prompt)) rng
  refine ⟨(quizLoopGo altR 0 (gen prompt).data ms).1,
    (quizLoopGo altR 0 (gen prompt).data ms).2, ?_⟩
  unfold create_quiz
  simp only [if_neg hne, hms]

/-- C6 (witness): the no-abort part applied at a concrete run with a
failing distractor oracle, discharging its hypothesis. -/
theorem distractor_failure_amended_witness :
    ∃ items masked,
      create_quiz (fun _ => "天气不错") altRNone (fun _ => []) [] "w" =
        some ("天气不错", items, masked) :=
  distractor_failure_amended.2 (fun _ => "天气不错") altRNone (fun _ => []) [] "w"
    (by decide)

/-! ### C7 -/

/-- C7 (counterexample): the QuizItem invariant fails as stated.  Nothing
in `generate_alternatives` or `create_quiz` filters the original morpheme
out of the oracle's response: when the distractor oracle returns
"甲乙|丙丁|戊己" for the morpheme "甲乙", the produced QuizItem's
alternatives contain its own `original_morpheme`. -/
theorem quizitem_invariant_cex :
    create_quiz (fun _ => "甲乙真好") altREcho
        (fun _ => [mkTok "甲乙" "NOUN" "nsubj"]) [] "t"
        = some ("甲乙真好", [⟨"甲乙", ["甲乙", "丙丁", "戊己"]⟩], " (0) 真好".data) ∧
      "甲乙" ∈ ["甲乙", "丙丁", "戊己"] := by
  refine ⟨by decide, by decide⟩

/-- C7 (amended): the invariant holds exactly when the distractor oracle's
(parsed) response never contains the quizzed morpheme itself — the
assembler performs no filtering of its own.  Under that assumption on the
processed morphemes, no produced QuizItem lists its `original_morpheme`
among its `alternatives`. -/
theorem quizitem_invariant_amended (altR : String → Option String)
    (i : Nat) (masked : List Char) (ms : List String)
    (h : ∀ m ∈ ms, m ∉ generate_alternatives altR m) :
    ∀ item ∈ (quizLoopGo altR i masked ms).1,
      item.original_morpheme ∉ item.alternatives := by
  intro item hitem
  rw [quizLoopGo_fst] at hitem
  obtain ⟨m, hm, rfl⟩ := List.mem_map.mp hitem
  exact h m (List.mem_filter.mp hm).1

/-- C7 (witness): the amended invariant applied at a concrete run whose
oracle returns three alternatives distinct from the morpheme. -/
theorem quizitem_invariant_amended_witness :
    (QuizItem.mk "甲乙" ["丙丁", "戊己", "庚辛"]).original_morpheme ∉
      (QuizItem.mk "甲乙" ["丙丁", "戊己", "庚辛"]).alternatives :=
  quizitem_invariant_amended altRGood 0 "甲乙真好".data ["甲乙"] (by decide)
    ⟨"甲乙", ["丙丁", "戊己", "庚辛"]⟩ (by decide)

/-! ### C8 -/

/-- C8: the empty-quiz sentinel.  Whatever the distractor oracle, the
annotator, and the random stream are, if the passage oracle yields the
empty (or failed, modelled identically) response, `create_quiz` returns
exactly `("", [], "")` — the universal quantification over the other
collaborators shows no further oracle call can influence (or be required
for) the result. -/
theorem empty_passage_sentinel (gen : String → String)
    (altR : String → Option String) (tok : String → List Token)
    (rng : List Nat) (prompt : String) (h : gen prompt = "") :
    create_quiz gen altR tok rng prompt = some ("", [], []) := by
  unfold create_quiz
  simp [h]

/-- C8 (witness): the sentinel theorem applied at a concrete failing
passage oracle. -/
theorem empty_passage_sentinel_witness :
    create_quiz (fun _ => "") altRGood (fun _ => toksTwo) [3, 1] "茶道" =
      some ("", [], []) :=
  empty_passage_sentinel (fun _ => "") altRGood (fun _ => toksTwo) [3, 1] "茶道" rfl

/-! ### C9 -/

/-- C9: the shuffler law.  `present` returns a permutation of
`item.alternatives ++ [item.original_morpheme]` for every random stream, so
the multiset of displayed answers equals alternatives plus the original.
(The source shuffles the freshly concatenated list in place, never the
item's own list, so the item is not mutated; in this embedding `present` is
a pure function of the item.) -/
theorem shuffler_law (rng : List Nat) (item : QuizItem) :
    List.Perm (present rng item) (item.alternatives ++ [item.original_morpheme]) :=
  sampleGo_perm (item.alternatives ++ [item.original_morpheme]).length rng
    (item.alternatives ++ [item.original_morpheme]) rfl

/-! ### C10 -/

/-- C10: empty selection passes the passage through.  If the passage is
non-empty but morpheme selection yields the empty sequence, `create_quiz`
returns the passage unchanged, no quiz items, and a masked passage equal to
the original passage; the distractor oracle (universally quantified) is
never consulted. -/
theorem empty_selection_passthrough (gen : String → String)
    (altR : String → Option String) (tok : String → List Token)
    (rng : List Nat) (prompt : String) (hne : gen prompt ≠ "")
    (hsel : extract_morphemes (tok (gen prompt)) 10 rng = some []) :
    create_quiz gen altR tok rng prompt = some (gen prompt, [], (gen prompt).data) := by
  unfold create_quiz
  simp only [if_neg hne, hsel, quizLoopGo]

/-- C10 (witness): the pass-through theorem applied at a concrete passage
whose annotation yields no tokens (hence no candidates). -/
theorem empty_selection_passthrough_witness :
    create_quiz (fun _ => "好茶") altRNone (fun _ => []) [] "w" =
      some ("好茶", [], "好茶".data) :=
  empty_selection_passthrough (fun _ => "好茶") altRNone (fun _ => []) [] "w"
    (by decide) (by decide)
